import Mathlib

set_option maxRecDepth 100000

/-!
A shallow embedding of the core of the Backtest_framework repository
(`src/backtest/portfolio.py`, `src/core/execution.py`, `src/core/sizer.py`,
`src/core/engine.py`) together with theorems settling the specification
claims about it.

Modelling conventions:
* Python floats are modelled as `PFloat`: either a rational number or the
  IEEE `nan` value.  Arithmetic is exact (no rounding), `nan` propagates
  through arithmetic, and every comparison involving `nan` is `false`,
  exactly as in Python.  Quantities that the code guarantees numeric
  (portfolio cash, validated fill prices, share counts) are plain `ℚ`.
* Python dicts are association lists (`List (String × _)`), which preserves
  insertion order and key-update-in-place semantics.
* Python exceptions are `Except`: every `raise` in the source happens before
  any state mutation, so a failing call is modelled as returning the error
  with no successor state.
-/

/-- Absolute value on `ℚ`, spelled so that it evaluates by kernel
reduction (definitionally equal to `|·|`, see `ratAbs_eq`). -/
def ratAbs (q : ℚ) : ℚ := if q < 0 then -q else q

/-- Absolute value on `ℤ`, spelled so that it evaluates by kernel
reduction (equal to `|·|`, see `intAbs_eq`). -/
def intAbs (n : ℤ) : ℤ := if n < 0 then -n else n

theorem ratAbs_eq (q : ℚ) : ratAbs q = |q| := by
  by_cases h : q < 0
  · rw [ratAbs, if_pos h, abs_of_neg h]
  · rw [ratAbs, if_neg h, abs_of_nonneg (not_lt.mp h)]

theorem intAbs_eq (n : ℤ) : intAbs n = |n| := by
  by_cases h : n < 0
  · rw [intAbs, if_pos h, abs_of_neg h]
  · rw [intAbs, if_neg h, abs_of_nonneg (not_lt.mp h)]

/-- A Python float: a rational value or `nan`.  (Infinities never arise in
the modelled code paths: every division in the source is guarded by a
non-zero denominator check.) -/
inductive PFloat where
  | nan : PFloat
  | val : ℚ → PFloat
deriving DecidableEq, Repr

def PFloat.add : PFloat → PFloat → PFloat
  | .val a, .val b => .val (a + b)
  | _, _ => .nan

def PFloat.mul : PFloat → PFloat → PFloat
  | .val a, .val b => .val (a * b)
  | _, _ => .nan

def PFloat.sub : PFloat → PFloat → PFloat
  | .val a, .val b => .val (a - b)
  | _, _ => .nan

def PFloat.div : PFloat → PFloat → PFloat
  | .val a, .val b => .val (a / b)
  | _, _ => .nan

def PFloat.abs : PFloat → PFloat
  | .val a => .val (ratAbs a)
  | .nan => .nan

instance : Add PFloat := ⟨PFloat.add⟩
instance : Mul PFloat := ⟨PFloat.mul⟩
instance : Sub PFloat := ⟨PFloat.sub⟩
instance : Div PFloat := ⟨PFloat.div⟩

/-- Python `<` on floats: any comparison with `nan` is `False`. -/
def PFloat.ltB : PFloat → PFloat → Bool
  | .val a, .val b => decide (a < b)
  | _, _ => false

/-- Python `<=` on floats: any comparison with `nan` is `False`. -/
def PFloat.leB : PFloat → PFloat → Bool
  | .val a, .val b => decide (a ≤ b)
  | _, _ => false

/-- Python `==` on floats: `nan == x` is `False`, even for `x = nan`. -/
def PFloat.eqB : PFloat → PFloat → Bool
  | .val a, .val b => decide (a = b)
  | _, _ => false

/-- `pandas.isna` on a float: true exactly on `nan`. -/
def PFloat.isna : PFloat → Bool
  | .nan => true
  | .val _ => false

/-- The pruning / tolerance epsilon `1e-9` used throughout `portfolio.py`
(idealised as the exact rational `10⁻⁹`). -/
def eps : ℚ := 1 / 1000000000

/-- A calendar date (the `datetime` values flowing through the engine are
normalised UTC midnights, so a plain date suffices). -/
structure Date where
  year : Nat
  month : Nat
  day : Nat
deriving DecidableEq, Repr

/-- A sortable key; for valid dates (`month ≤ 12`, `day ≤ 31`) it orders
dates chronologically. -/
def Date.key (t : Date) : Nat := (t.year * 16 + t.month) * 32 + t.day

/-- Chronological strict order on dates. -/
def Date.lt (a b : Date) : Prop := a.key < b.key

instance : DecidablePred fun p : Date × Date => Date.lt p.1 p.2 :=
  fun _ => inferInstanceAs (Decidable (_ < _))

instance (a b : Date) : Decidable (Date.lt a b) :=
  inferInstanceAs (Decidable (_ < _))

def Date.isLeapYear (y : Nat) : Bool :=
  (y % 4 == 0 && y % 100 != 0) || (y % 400 == 0)

def Date.daysInMonth (y m : Nat) : Nat :=
  if m = 2 then (if Date.isLeapYear y then 29 else 28)
  else if m = 4 ∨ m = 6 ∨ m = 9 ∨ m = 11 then 30
  else 31

/-- `current_date + timedelta(days=1)` for a valid date. -/
def Date.next (t : Date) : Date :=
  if t.day < Date.daysInMonth t.year t.month then ⟨t.year, t.month, t.day + 1⟩
  else if t.month < 12 then ⟨t.year, t.month + 1, 1⟩
  else ⟨t.year + 1, 1, 1⟩

/-- Python's `datetime.weekday()` (Monday = 0 … Sunday = 6), via Zeller's
congruence. -/
def Date.weekday (t : Date) : Nat :=
  let y := if t.month ≤ 2 then t.year - 1 else t.year
  let m := if t.month ≤ 2 then t.month + 12 else t.month
  let K := y % 100
  let J := y / 100
  (t.day + (13 * (m + 1)) / 5 + K + K / 4 + J / 4 + 5 * J + 5) % 7

/-- A date is well formed. -/
def Date.Valid (t : Date) : Prop :=
  1 ≤ t.month ∧ t.month ≤ 12 ∧ 1 ≤ t.day ∧ t.day ≤ Date.daysInMonth t.year t.month

instance (t : Date) : Decidable t.Valid :=
  inferInstanceAs (Decidable (_ ∧ _ ∧ _ ∧ _))

/-- `src/backtest/portfolio.py` — `Fill`: an executed trade.  Shares, price
and fee are numeric (fills reaching `apply_fill` come from the execution
simulator, which only emits validated numeric prices). -/
structure Fill where
  dt : Date
  symbol : String
  shares : ℚ
  price : ℚ
  fee : ℚ := 0
deriving DecidableEq, Repr

/-- `Fill.notional = shares * price`. -/
def Fill.notional (f : Fill) : ℚ := f.shares * f.price

/-- `Fill.cash_change = -notional - fee`. -/
def Fill.cash_change (f : Fill) : ℚ := -f.notional - f.fee

/-- Association-list lookup by string key (Python `dict.get`). -/
def getEntry (ps : List (String × α)) (s : String) : Option α :=
  (ps.find? (fun q => q.1 = s)).map Prod.snd

/-- Python `dict.get(s, 0)` on the positions dict. -/
def getPos (ps : List (String × ℚ)) (s : String) : ℚ :=
  (getEntry ps s).getD 0

/-- Python `d[s] = v`: update in place when the key exists, else append. -/
def setEntry (ps : List (String × α)) (s : String) (v : α) : List (String × α) :=
  match ps with
  | [] => [(s, v)]
  | (s', v') :: rest =>
      if s' = s then (s, v) :: rest else (s', v') :: setEntry rest s v

/-- Python `del d[s]` (removes the first — for a dict, only — entry). -/
def eraseEntry (ps : List (String × α)) (s : String) : List (String × α) :=
  match ps with
  | [] => []
  | (s', v') :: rest =>
      if s' = s then rest else (s', v') :: eraseEntry rest s

/-- Exceptions that abort a run: the `ValueError`s and `RuntimeError`
raised by the portfolio layer, and the `TypeError` Python raises at the
engine's `simulate_execution(orders=..., open_prices_for_day=...)` call,
whose keyword argument does not exist in the callee's
`(self, orders, data_handler)` signature. -/
inductive PErr where
  | invalidFillPrice : PErr
  | invalidFillFee : PErr
  | missingPrice : String → PErr
  | invariantViolated : PErr
  | typeError : PErr
deriving DecidableEq, Repr

/-- A daily performance snapshot (the dict appended to `daily_history`). -/
structure Snapshot where
  dt : Date
  equity : PFloat
  cash : ℚ
  positions_value : PFloat
  gross_exposure : PFloat
  net_exposure : PFloat
  num_positions : Nat
  daily_return : PFloat
deriving DecidableEq, Repr

/-- `src/backtest/portfolio.py` — `Portfolio` state. -/
structure Portfolio where
  initial_cash : ℚ
  cash : ℚ
  positions : List (String × ℚ)
  fees_paid : ℚ
  fills_log : List Fill
  daily_history : List Snapshot
  last_equity : PFloat
deriving DecidableEq, Repr

/-- `Portfolio.__init__(initial_cash)`. -/
def Portfolio.init (initial_cash : ℚ) : Portfolio :=
  { initial_cash := initial_cash
    cash := initial_cash
    positions := []
    fees_paid := 0
    fills_log := []
    daily_history := []
    last_equity := .val initial_cash }

/-- `Portfolio.apply_fill`: validate, then update position (pruning a
near-zero result), cash, fees and the fill log.  Both `raise`s precede any
mutation in the source, so the error cases return no successor state. -/
def Portfolio.apply_fill (p : Portfolio) (f : Fill) : Except PErr Portfolio :=
  if f.price ≤ 0 then .error .invalidFillPrice
  else if f.fee < 0 then .error .invalidFillFee
  else
    let newShares := getPos p.positions f.symbol + f.shares
    let ps := setEntry p.positions f.symbol newShares
    let ps := if ratAbs newShares < eps then eraseEntry ps f.symbol else ps
    .ok { p with
          positions := ps
          cash := p.cash + f.cash_change
          fees_paid := p.fees_paid + f.fee
          fills_log := p.fills_log ++ [f] }

/-- `sum(positions[s] * prices[s] for s in positions)` with Python float
semantics (`nan` absorbs). -/
def positionsValue (ps : List (String × ℚ)) (prices : String → Option PFloat) : PFloat :=
  ps.foldl (fun acc q => acc + PFloat.val q.2 * ((prices q.1).getD (.val 0))) (.val 0)

/-- `Portfolio.mark_to_market(prices)`: raise `MissingPrice` at the first
held symbol absent from `prices`; otherwise compute
`equity = cash + positions_value` and re-check the identity within `1e-9`
(the `RuntimeError` branch). -/
def Portfolio.mark_to_market (p : Portfolio) (prices : String → Option PFloat) :
    Except PErr PFloat :=
  match p.positions.find? (fun q => (prices q.1).isNone) with
  | some q => .error (.missingPrice q.1)
  | none =>
      let pv := positionsValue p.positions prices
      let equity := PFloat.val p.cash + pv
      if PFloat.ltB (PFloat.abs (equity - (PFloat.val p.cash + pv))) (.val eps)
      then .ok equity
      else .error .invariantViolated

/-- `Portfolio.get_weights(prices)`: per-symbol market-value weights plus a
`"cash"` entry, or all-zero weights when `|equity| < 1e-9`. -/
def Portfolio.get_weights (p : Portfolio) (prices : String → Option PFloat) :
    Except PErr (List (String × PFloat)) := do
  let equity ← p.mark_to_market prices
  if PFloat.ltB (PFloat.abs equity) (.val eps) then
    return p.positions.map (fun q => (q.1, PFloat.val 0))
  else
    let weights := p.positions.map
      (fun q => (q.1, PFloat.val q.2 * ((prices q.1).getD (.val 0)) / equity))
    return setEntry weights "cash" (PFloat.val p.cash / equity)

/-- `Portfolio.take_snapshot(dt, prices)`. -/
def Portfolio.take_snapshot (p : Portfolio) (dt : Date)
    (prices : String → Option PFloat) : Except PErr Portfolio := do
  let equity ← p.mark_to_market prices
  let pv := equity - PFloat.val p.cash
  let gross := p.positions.foldl
    (fun acc q => acc + PFloat.abs (PFloat.val q.2 * ((prices q.1).getD (.val 0)))) (.val 0)
  let snap : Snapshot :=
    { dt := dt
      equity := equity
      cash := p.cash
      positions_value := pv
      gross_exposure := gross
      net_exposure := pv
      num_positions := p.positions.length
      daily_return :=
        if PFloat.eqB p.last_equity (.val 0) then PFloat.val 0
        else equity / p.last_equity - PFloat.val 1 }
  return { p with
           daily_history := p.daily_history ++ [snap]
           last_equity := equity }

/-- `src/core/execution.py` — `Order`: a trade intent. -/
structure Order where
  symbol : String
  shares : ℚ
  generated_dt : Date
  execute_dt : Date
  style : String := "MKT"
deriving DecidableEq, Repr

/-- One row of the pre-loaded clean bar store (only the fields the modelled
code reads: `open` and `adj_close`). -/
structure Bar where
  symbol : String
  date : Date
  openP : ℚ
  adjClose : ℚ
deriving DecidableEq, Repr

/-- `DataHandler.get_price(symbol, date, field)`: the stored bar's field, or
`None` when no bar exists for `(symbol, date)`. -/
def get_price (bars : List Bar) (s : String) (d : Date) (field : String) : Option ℚ :=
  (bars.find? (fun b => b.symbol = s ∧ b.date = d)).map
    (fun b => if field = "open" then b.openP else b.adjClose)

/-- `NextOpenFillModel.get_fill_price`: the open price on the order's
`execute_dt`, or `None` when missing or non-positive. -/
def get_fill_price (bars : List Bar) (o : Order) : Option ℚ :=
  match get_price bars o.symbol o.execute_dt "open" with
  | none => none
  | some price => if price ≤ 0 then none else some price

/-- `BasicCostModel`: the stored attributes already hold the bps values
divided by 10000, as in `__init__`. -/
structure BasicCostModel where
  commission_bps : ℚ
  slippage_bps : ℚ
deriving DecidableEq, Repr

/-- `BasicCostModel(commission_bps, slippage_bps)` constructor. -/
def BasicCostModel.ofBps (commission slippage : ℚ) : BasicCostModel :=
  { commission_bps := commission / 10000, slippage_bps := slippage / 10000 }

/-- `BasicCostModel.calculate_fee(shares, price)`. -/
def BasicCostModel.calculate_fee (cm : BasicCostModel) (shares price : ℚ) : ℚ :=
  let notional := ratAbs (shares * price)
  let commission := cm.commission_bps * notional
  let slippage_cost := cm.slippage_bps * notional
  commission + slippage_cost

def natStr (n : Nat) : String := toString n

def pad2 (n : Nat) : String := if n < 10 then "0" ++ natStr n else natStr n

def pad4 (n : Nat) : String :=
  if n < 10 then "000" ++ natStr n
  else if n < 100 then "00" ++ natStr n
  else if n < 1000 then "0" ++ natStr n
  else natStr n

/-- `order.execute_dt.date()` as printed inside the rejection f-string
(ISO `YYYY-MM-DD`). -/
def Date.iso (t : Date) : String := pad4 t.year ++ "-" ++ pad2 t.month ++ "-" ++ pad2 t.day

/-- A rejected-order log entry (`{'order': ..., 'reason': ...}`). -/
structure Rejection where
  order : Order
  reason : String
deriving DecidableEq, Repr

/-- The rejection reason f-string. -/
def rejectionReason (o : Order) : String :=
  "Missing or invalid price for " ++ o.symbol ++ " on " ++ o.execute_dt.iso

/-- `ExecutionHandler.simulate_execution` with the reference
`NextOpenFillModel` and `BasicCostModel` plugged in: one pass over the
orders, each yielding either a `Fill` or a `Rejection`. -/
def simulate_execution (cm : BasicCostModel) (bars : List Bar) (orders : List Order) :
    List Fill × List Rejection :=
  orders.foldl
    (fun acc o =>
      match get_fill_price bars o with
      | none => (acc.1, acc.2 ++ [{ order := o, reason := rejectionReason o }])
      | some fill_price =>
          let fee := cm.calculate_fee o.shares fill_price
          (acc.1 ++ [{ dt := o.execute_dt, symbol := o.symbol, shares := o.shares,
                       price := fill_price, fee := fee : Fill }], acc.2))
    ([], [])

/-- Python `round` (ties to even) on an exact rational. -/
def roundHalfEven (q : ℚ) : ℤ :=
  let f := Rat.floor q
  let r := q - f
  if r < 1/2 then f
  else if 1/2 < r then f + 1
  else if f % 2 = 0 then f else f + 1

/-- `src/core/sizer.py` — `target_weights_to_quantities`.  The Python
`set`-union of the key sets is modelled as the deduplicated concatenation of
the two key lists (set iteration order is unspecified in Python; none of the
properties below depend on it). -/
def target_weights_to_quantities (target_weights current_positions : List (String × ℚ))
    (equity : ℚ) (close_prices : String → Option PFloat) : List (String × ℤ) :=
  let all_symbols := (target_weights.map Prod.fst ++ current_positions.map Prod.fst).dedup
  all_symbols.foldl
    (fun quantities symbol =>
      let target_w := (getEntry target_weights symbol).getD 0
      let current_shares := (getEntry current_positions symbol).getD 0
      match close_prices symbol with
      | none => quantities                 -- price is None
      | some .nan => quantities            -- pd.isna(price)
      | some (.val price) =>
          if price ≤ 0 then quantities     -- price <= 0
          else
            let target_shares := (target_w * equity) / price
            let order_qty := roundHalfEven (target_shares - current_shares)
            if intAbs order_qty < 1 then quantities
            else quantities ++ [(symbol, order_qty)])
    []

/-- `BacktestEngine._is_rebalance_day`. -/
def isRebalanceDay (schedule : String) (current_date : Date) : Bool :=
  if schedule = "D" then true
  else if schedule = "W" then current_date.weekday == 4
  else if schedule = "M" then decide ((current_date.next).month ≠ current_date.month)
  else false

/-- One day's close prices as the engine builds them
(`adj_close_prices.loc[t_date].to_dict()`): the pandas pivot has a column
for every symbol occurring anywhere in the bar store, holding `NaN` on the
dates for which that symbol has no bar, and `to_dict` keeps those `NaN`
entries.  A symbol with no bars at all has no column and hence no entry. -/
def closePriceMap (bars : List Bar) (t : Date) : String → Option PFloat := fun s =>
  match bars.find? (fun b => b.symbol = s ∧ b.date = t) with
  | some b => some (.val b.adjClose)
  | none => if bars.any (fun b => b.symbol = s) then some .nan else none

/-- The `portfolio_state` dict handed to the strategy. -/
structure StratView where
  equity : PFloat
  cash : ℚ
  positions : List (String × ℚ)
  weights : List (String × PFloat)

/-- Engine configuration: calendar, data, cost model, schedule and the
pluggable strategy (`generate_orders`, abstracted as an arbitrary function
of the date, the sliced history window and the portfolio-state view). -/
structure EngineCfg where
  schedule : String
  days : List Date
  bars : List Bar
  cost : BasicCostModel
  lookback : Nat
  strategy : Date → List Date → StratView → List (String × ℚ)

/-- Engine run state.  `scheduled` flattens the `scheduled_orders` dict
(each order is keyed by its own `execute_dt`, so popping key `t` is
filtering on `execute_dt = t`).  `produced` is an audit log of every order
the engine ever created; `fatal` records the exception that aborted the
run, if any. -/
structure EngSt where
  port : Portfolio
  scheduled : List Order
  produced : List Order
  fatal : Option PErr

/-- Phase 2 of `run_backtest` (rebalance-day signal generation): returns
the new orders to schedule, or the portfolio exception it raised. -/
def rebalancePhase (cfg : EngineCfg) (i : Nat) (t : Date) (port : Portfolio)
    (cp : String → Option PFloat) : Except PErr (List Order) :=
  if isRebalanceDay cfg.schedule t then
    match port.mark_to_market cp with
    | .error e => .error e
    | .ok equity =>
      match port.get_weights cp with
      | .error e => .error e
      | .ok weights =>
        let view : StratView :=
          { equity := equity, cash := port.cash, positions := port.positions,
            weights := weights }
        let hist := (cfg.days.take (i + 1)).drop (i - cfg.lookback)
        if hist = [] then .ok []
        else
          let target_quantities := cfg.strategy t hist view
          match cfg.days.get? (i + 1) with
          | none => .ok []
          | some next_day =>
              .ok (target_quantities.map (fun q =>
                { symbol := q.1, shares := q.2, generated_dt := t,
                  execute_dt := next_day : Order }))
  else .ok []

/-- One iteration of the `run_backtest` loop for calendar index `i`, day
`t`.  `scheduled_orders.pop(t_date, [])` splits the pending orders into
those keyed by (= executing on) `t` and the rest.  When the popped list is
non-empty, the source calls
`self.execution_handler.simulate_execution(orders=..., open_prices_for_day=...)`
— but `ExecutionHandler.simulate_execution`'s signature is
`(self, orders, data_handler)`, so the keyword argument does not bind and
Python raises `TypeError` there, before any fill is produced or applied:
the run aborts and the engine never reaches `portfolio.apply_fill`.  When
the popped list is empty (`if orders_to_execute:` is falsy) the execution
block is skipped and the day proceeds to signal generation and the
end-of-day snapshot. -/
def engineDay (cfg : EngineCfg) (i : Nat) (t : Date) (st : EngSt) : EngSt :=
  let orders_to_execute := st.scheduled.filter (fun o => o.execute_dt = t)
  let rest := st.scheduled.filter (fun o => ¬ o.execute_dt = t)
  if orders_to_execute.isEmpty then
    let cp := closePriceMap cfg.bars t
    match rebalancePhase cfg i t st.port cp with
    | .error e =>
        { port := st.port, scheduled := rest, produced := st.produced, fatal := some e }
    | .ok newOrders =>
      match st.port.take_snapshot t cp with
      | .error e =>
          { port := st.port, scheduled := rest ++ newOrders,
            produced := st.produced ++ newOrders, fatal := some e }
      | .ok port2 =>
          { port := port2, scheduled := rest ++ newOrders,
            produced := st.produced ++ newOrders, fatal := none }
  else
    { st with scheduled := rest, fatal := some .typeError }

/-- The `for i, t_date in enumerate(self.trading_days)` loop; a raised
exception stops the run with the audit logs as of that point. -/
def engineLoop (cfg : EngineCfg) : List (Nat × Date) → EngSt → EngSt
  | [], st => st
  | (i, t) :: rest, st =>
      if st.fatal.isSome then st else engineLoop cfg rest (engineDay cfg i t st)

/-- `BacktestEngine.run_backtest()` over the portfolio the engine was
constructed with (`BacktestEngine.__init__` receives an arbitrary
`Portfolio` from its caller). -/
def runBacktest (cfg : EngineCfg) (portfolio : Portfolio) : EngSt :=
  engineLoop cfg cfg.days.enum
    { port := portfolio, scheduled := [], produced := [], fatal := none }

/-! ### Association-list lemmas (Python dict semantics) -/

theorem getEntry_nil (s : String) : getEntry ([] : List (String × α)) s = none := rfl

theorem getEntry_cons (q : String × α) (ps : List (String × α)) (s : String) :
    getEntry (q :: ps) s = if q.1 = s then some q.2 else getEntry ps s := by
  by_cases h : q.1 = s <;> simp [getEntry, List.find?_cons, h]

theorem getEntry_eq_none_of_not_mem {ps : List (String × α)} {s : String}
    (h : s ∉ ps.map Prod.fst) : getEntry ps s = none := by
  induction ps with
  | nil => rfl
  | cons q rest ih =>
      simp only [List.map_cons, List.mem_cons, not_or] at h
      rw [getEntry_cons, if_neg (fun hq => h.1 hq.symm), ih h.2]

theorem getEntry_setEntry_self (ps : List (String × α)) (s : String) (v : α) :
    getEntry (setEntry ps s v) s = some v := by
  induction ps with
  | nil => simp [setEntry, getEntry_cons]
  | cons q rest ih =>
      by_cases h : q.1 = s
      · simp [setEntry, h, getEntry_cons]
      · simp only [setEntry, if_neg h]
        rw [getEntry_cons, if_neg h, ih]

theorem getEntry_setEntry_ne (ps : List (String × α)) (s s' : String) (v : α)
    (h : s' ≠ s) : getEntry (setEntry ps s v) s' = getEntry ps s' := by
  have hne : s ≠ s' := fun hs => h hs.symm
  induction ps with
  | nil => simp [setEntry, getEntry_cons, getEntry_nil, hne]
  | cons q rest ih =>
      by_cases hq : q.1 = s
      · simp only [setEntry, if_pos hq]
        rw [getEntry_cons, getEntry_cons, if_neg hne,
          if_neg (fun hc : q.1 = s' => hne (hq ▸ hc))]
      · simp only [setEntry, if_neg hq]
        rw [getEntry_cons, getEntry_cons, ih]

theorem getEntry_eraseEntry_ne (ps : List (String × α)) (s s' : String)
    (h : s' ≠ s) : getEntry (eraseEntry ps s) s' = getEntry ps s' := by
  induction ps with
  | nil => rfl
  | cons q rest ih =>
      by_cases hq : q.1 = s
      · simp only [eraseEntry, if_pos hq]
        rw [getEntry_cons, if_neg (fun hc : q.1 = s' => h (hc.symm.trans hq))]
      · simp only [eraseEntry, if_neg hq]
        rw [getEntry_cons, getEntry_cons, ih]

theorem getEntry_eraseEntry_setEntry_self (ps : List (String × α)) (s : String) (v : α)
    (hnd : (ps.map Prod.fst).Nodup) :
    getEntry (eraseEntry (setEntry ps s v) s) s = none := by
  induction ps with
  | nil => simp [setEntry, eraseEntry, getEntry_nil]
  | cons q rest ih =>
      simp only [List.map_cons, List.nodup_cons] at hnd
      by_cases hq : q.1 = s
      · simp only [setEntry, if_pos hq, eraseEntry, if_pos rfl]
        exact getEntry_eq_none_of_not_mem (hq ▸ hnd.1)
      · simp only [setEntry, if_neg hq, eraseEntry, if_neg hq]
        rw [getEntry_cons, if_neg hq, ih hnd.2]

theorem setEntry_eq_append_of_not_mem (ps : List (String × α)) (s : String) (v : α)
    (h : s ∉ ps.map Prod.fst) : setEntry ps s v = ps ++ [(s, v)] := by
  induction ps with
  | nil => rfl
  | cons q rest ih =>
      simp only [List.map_cons, List.mem_cons, not_or] at h
      have hne : ¬ q.1 = s := fun hq => h.1 hq.symm
      simp [setEntry, hne, ih h.2]

/-- With duplicate-free keys, a member is exactly what the key lookup finds. -/
theorem getEntry_eq_of_mem {ps : List (String × α)} {q : String × α}
    (hnd : (ps.map Prod.fst).Nodup) (hq : q ∈ ps) : getEntry ps q.1 = some q.2 := by
  induction ps with
  | nil => cases hq
  | cons r rest ih =>
      simp only [List.map_cons, List.nodup_cons] at hnd
      rcases List.mem_cons.mp hq with h | h
      · subst h; simp [getEntry_cons]
      · have hne : r.1 ≠ q.1 := by
          intro heq
          exact hnd.1 (heq ▸ List.mem_map_of_mem Prod.fst h)
        rw [getEntry_cons, if_neg hne, ih hnd.2 h]

/-! ### Numeric price maps and the value of `mark_to_market` -/

/-- Every held symbol has a numeric (non-`nan`) price entry. -/
def numericCover (ps : List (String × ℚ)) (prices : String → Option PFloat) : Prop :=
  ∀ q ∈ ps, ∃ r : ℚ, prices q.1 = some (.val r)

/-- The rational number behind a numeric price entry (0 elsewhere; only ever
read under `numericCover`). -/
def priceQ (prices : String → Option PFloat) (s : String) : ℚ :=
  match prices s with
  | some (.val r) => r
  | _ => 0

/-- Spec-side `Σ position_shares × price`. -/
def posValueQ (ps : List (String × ℚ)) (prices : String → Option PFloat) : ℚ :=
  (ps.map (fun q => q.2 * priceQ prices q.1)).sum

/-- Spec-side `Σ |position_shares × price|`. -/
def grossValueQ (ps : List (String × ℚ)) (prices : String → Option PFloat) : ℚ :=
  (ps.map (fun q => |q.2 * priceQ prices q.1|)).sum

theorem positionsValue_aux (prices : String → Option PFloat)
    (ps : List (String × ℚ)) (a : ℚ) (h : numericCover ps prices) :
    ps.foldl (fun acc q => acc + PFloat.val q.2 * ((prices q.1).getD (.val 0))) (.val a)
      = .val (a + posValueQ ps prices) := by
  induction ps generalizing a with
  | nil => simp [posValueQ]
  | cons q rest ih =>
      obtain ⟨r, hr⟩ := h q (List.mem_cons_self q rest)
      have hrest : numericCover rest prices := fun q' hq' => h q' (List.mem_cons_of_mem q hq')
      rw [List.foldl_cons, hr]
      have hstep : (PFloat.val a + PFloat.val q.2 * ((some (PFloat.val r)).getD (.val 0)))
          = PFloat.val (a + q.2 * r) := rfl
      rw [hstep, ih _ hrest]
      have hp : priceQ prices q.1 = r := by simp [priceQ, hr]
      simp only [posValueQ, List.map_cons, List.sum_cons, hp]
      exact congrArg PFloat.val (by ring)

theorem positionsValue_eq_val (ps : List (String × ℚ)) (prices : String → Option PFloat)
    (h : numericCover ps prices) :
    positionsValue ps prices = .val (posValueQ ps prices) := by
  have := positionsValue_aux prices ps 0 h
  simpa [positionsValue] using this

theorem grossValue_aux (prices : String → Option PFloat)
    (ps : List (String × ℚ)) (a : ℚ) (h : numericCover ps prices) :
    ps.foldl (fun acc q => acc + PFloat.abs (PFloat.val q.2 * ((prices q.1).getD (.val 0))))
        (.val a)
      = .val (a + grossValueQ ps prices) := by
  induction ps generalizing a with
  | nil => simp [grossValueQ]
  | cons q rest ih =>
      obtain ⟨r, hr⟩ := h q (List.mem_cons_self q rest)
      have hrest : numericCover rest prices := fun q' hq' => h q' (List.mem_cons_of_mem q hq')
      rw [List.foldl_cons, hr]
      have hstep : (PFloat.val a + PFloat.abs (PFloat.val q.2 * ((some (PFloat.val r)).getD (.val 0))))
          = PFloat.val (a + |q.2 * r|) := by
        show PFloat.val (a + ratAbs (q.2 * r)) = _
        rw [ratAbs_eq]
      rw [hstep, ih _ hrest]
      have hp : priceQ prices q.1 = r := by simp [priceQ, hr]
      simp only [grossValueQ, List.map_cons, List.sum_cons, hp]
      exact congrArg PFloat.val (by ring)

/-- If every held symbol has an entry, the missing-price scan finds nothing. -/
theorem find?_missing_eq_none {ps : List (String × ℚ)} {prices : String → Option PFloat}
    (h : ∀ q ∈ ps, (prices q.1).isSome) :
    ps.find? (fun q => (prices q.1).isNone) = none := by
  rw [List.find?_eq_none]
  intro q hq
  have hs := h q hq
  simp only [Option.isSome_iff_exists] at hs
  obtain ⟨v, hv⟩ := hs
  simp [hv]

/-- The sanity check `abs(equity - (cash + positions_value)) < 1e-9` passes on
any numeric equity (the difference is literally zero). -/
theorem sanity_check_passes (c v : ℚ) :
    PFloat.ltB (PFloat.abs ((PFloat.val c + PFloat.val v) - (PFloat.val c + PFloat.val v)))
      (.val eps) = true := by
  have : ((PFloat.val c + PFloat.val v) - (PFloat.val c + PFloat.val v))
      = PFloat.val 0 := by
    show PFloat.sub (PFloat.val (c + v)) (PFloat.val (c + v)) = PFloat.val 0
    simp [PFloat.sub]
  rw [this]
  show decide (ratAbs 0 < eps) = true
  rw [decide_eq_true_eq, ratAbs_eq]
  norm_num [eps]

/-- `mark_to_market` on a numerically covered price map returns exactly
`cash + Σ position_shares × price`. -/
theorem mark_to_market_ok (p : Portfolio) (prices : String → Option PFloat)
    (h : numericCover p.positions prices) :
    p.mark_to_market prices = .ok (.val (p.cash + posValueQ p.positions prices)) := by
  have hfind : p.positions.find? (fun q => (prices q.1).isNone) = none := by
    apply find?_missing_eq_none
    intro q hq
    obtain ⟨r, hr⟩ := h q hq
    simp [hr]
  rw [Portfolio.mark_to_market, hfind]
  simp only [positionsValue_eq_val p.positions prices h]
  have hadd : (PFloat.val p.cash + PFloat.val (posValueQ p.positions prices))
      = PFloat.val (p.cash + posValueQ p.positions prices) := rfl
  rw [if_pos]
  · rw [hadd]
  · rw [sanity_check_passes]

instance {ε α : Type} [DecidableEq ε] [DecidableEq α] : DecidableEq (Except ε α) :=
  fun x y =>
    match x, y with
    | .ok a, .ok b =>
        if h : a = b then .isTrue (by rw [h]) else .isFalse (by intro hc; cases hc; exact h rfl)
    | .error a, .error b =>
        if h : a = b then .isTrue (by rw [h]) else .isFalse (by intro hc; cases hc; exact h rfl)
    | .ok _, .error _ => .isFalse (by intro hc; cases hc)
    | .error _, .ok _ => .isFalse (by intro hc; cases hc)

/-- Executable check behind `numericCover`. -/
def numericCoverB (ps : List (String × ℚ)) (prices : String → Option PFloat) : Bool :=
  ps.all (fun q => match prices q.1 with | some (.val _) => true | _ => false)

theorem numericCover_of_B {ps : List (String × ℚ)} {prices : String → Option PFloat}
    (h : numericCoverB ps prices = true) : numericCover ps prices := by
  intro q hq
  have hb := List.all_eq_true.mp h q hq
  cases hv : prices q.1 with
  | none => rw [hv] at hb; cases hb
  | some v =>
      cases v with
      | nan => rw [hv] at hb; cases hb
      | val r => exact ⟨r, rfl⟩

/-- Extract the successor portfolio of a successful call (used only to name
concrete reachable portfolios in witnesses and counterexamples). -/
def orInit (r : Except PErr Portfolio) : Portfolio :=
  match r with
  | .ok p => p
  | .error _ => Portfolio.init 0

theorem mark_to_market_missing_iff (p : Portfolio) (prices : String → Option PFloat) :
    (∃ q ∈ p.positions, prices q.1 = none) ↔
      ∃ s, p.mark_to_market prices = .error (.missingPrice s) := by
  constructor
  · intro ⟨q, hq, hnone⟩
    have : (p.positions.find? (fun q => (prices q.1).isNone)).isSome := by
      rw [List.find?_isSome]
      exact ⟨q, hq, by simp [hnone]⟩
    obtain ⟨q', hq'⟩ := Option.isSome_iff_exists.mp this
    exact ⟨q'.1, by rw [Portfolio.mark_to_market, hq']⟩
  · intro ⟨s, hs⟩
    cases hf : p.positions.find? (fun q => (prices q.1).isNone) with
    | some q =>
        have hmem := List.mem_of_find?_eq_some hf
        have hpred := List.find?_some hf
        simp only [Option.isNone_iff_eq_none, decide_eq_true_eq] at hpred
        exact ⟨q, hmem, hpred⟩
    | none =>
        rw [Portfolio.mark_to_market, hf] at hs
        by_cases hlt : PFloat.ltB (PFloat.abs
            ((PFloat.val p.cash + positionsValue p.positions prices) -
              (PFloat.val p.cash + positionsValue p.positions prices))) (.val eps) = true
        · rw [if_pos hlt] at hs; cases hs
        · rw [if_neg hlt] at hs; cases hs

/-- C2 (amended): `mark_to_market(prices)` fails with `MissingPrice` iff some
held symbol has no entry in `prices`; when every held symbol has a numeric
(non-NaN) price it returns exactly `cash + Σ(position_shares × price)`
(exactly — the model's arithmetic is exact, so "within 1e-9" is met).  (The
un-amended claim fails when a held symbol's entry is the float `NaN`: the
call then fails with the internal-consistency error instead of returning —
see the counterexample.) -/
theorem mark_to_market_spec (p : Portfolio) (prices : String → Option PFloat) :
    ((∃ q ∈ p.positions, prices q.1 = none) ↔
      ∃ s, p.mark_to_market prices = .error (.missingPrice s)) ∧
    (numericCover p.positions prices →
      p.mark_to_market prices = .ok (.val (p.cash + posValueQ p.positions prices))) :=
  ⟨mark_to_market_missing_iff p prices, mark_to_market_ok p prices⟩

def fillS1 : Fill := { dt := ⟨2024, 1, 2⟩, symbol := "AAPL", shares := 10, price := 10, fee := 1 }

/-- Spec scenario 1 portfolio: cash 1000, then buy 10 AAPL @ 10 with fee 1. -/
def pS1 : Portfolio := orInit ((Portfolio.init 1000).apply_fill fillS1)

def pricesS1 : String → Option PFloat := fun s => if s = "AAPL" then some (.val 10) else none

/-- Witness for C2 at spec scenario 1 (equity 999 = 899 + 10·10). -/
theorem mark_to_market_spec_witness :
    numericCover pS1.positions pricesS1 ∧
    pS1.mark_to_market pricesS1 = .ok (.val (pS1.cash + posValueQ pS1.positions pricesS1)) ∧
    pS1.cash + posValueQ pS1.positions pricesS1 = 999 := by
  have hnum : numericCover pS1.positions pricesS1 := numericCover_of_B (by with_unfolding_all decide)
  exact ⟨hnum, (mark_to_market_spec pS1 pricesS1).2 hnum, by with_unfolding_all decide⟩

def fillC2 : Fill := { dt := ⟨2024, 1, 2⟩, symbol := "A", shares := 1, price := 1, fee := 0 }

/-- A reachable portfolio holding one share of "A". -/
def pC2 : Portfolio := orInit ((Portfolio.init 0).apply_fill fillC2)

/-- A price map that covers "A" — with the float `NaN` (exactly what the
engine's pivoted close-price row contains on a day "A" has no bar). -/
def pricesC2 : String → Option PFloat := fun s => if s = "A" then some .nan else none

/-- C2 counterexample: every held symbol has an entry in the price map, yet
`mark_to_market` does not return `cash + Σ(position_shares × price)` — it
fails, and with the internal-consistency error rather than `MissingPrice`. -/
theorem mark_to_market_nan_counterexample :
    (∀ q ∈ pC2.positions, (pricesC2 q.1).isSome) ∧
    pC2.mark_to_market pricesC2 = .error PErr.invariantViolated ∧
    pC2.mark_to_market pricesC2 ≠
      .ok (PFloat.val pC2.cash + positionsValue pC2.positions pricesC2) := by
  refine ⟨by with_unfolding_all decide, by with_unfolding_all decide, by with_unfolding_all decide⟩

/-- C10 (amended): the `RuntimeError` branch of `mark_to_market` is
unreachable as long as no held symbol's price entry is `NaN`: the computed
equity is then compared against the identical numeric expression, whose
difference is exactly zero.  (With a `NaN` entry — which still "covers" the
held symbol — the comparison `abs(nan) < 1e-9` is false and the branch IS
taken: see the counterexample.) -/
theorem invariant_branch_unreachable (p : Portfolio) (prices : String → Option PFloat)
    (h : ∀ q ∈ p.positions, prices q.1 ≠ some PFloat.nan) :
    p.mark_to_market prices ≠ .error PErr.invariantViolated := by
  cases hf : p.positions.find? (fun q => (prices q.1).isNone) with
  | some q =>
      rw [Portfolio.mark_to_market, hf]
      intro hc
      cases hc
  | none =>
      have hnum : numericCover p.positions prices := by
        intro q hq
        have hnn := List.find?_eq_none.mp hf q hq
        simp only [Option.isNone_iff_eq_none, decide_eq_true_eq] at hnn
        cases hv : prices q.1 with
        | none => exact absurd hv hnn
        | some v =>
            cases v with
            | nan => exact absurd hv (h q hq)
            | val r => exact ⟨r, rfl⟩
      rw [mark_to_market_ok p prices hnum]
      intro hc
      cases hc

def fillW10 : Fill := { dt := ⟨2024, 1, 2⟩, symbol := "MSFT", shares := 2, price := 50, fee := 0 }

def pW10 : Portfolio := orInit ((Portfolio.init 500).apply_fill fillW10)

def pricesW10 : String → Option PFloat := fun s => if s = "MSFT" then some (.val 55) else none

/-- Witness for C10 on a portfolio holding 2 MSFT with a numeric price map. -/
theorem invariant_branch_unreachable_witness :
    (∀ q ∈ pW10.positions, pricesW10 q.1 ≠ some PFloat.nan) ∧
    pW10.mark_to_market pricesW10 ≠ .error PErr.invariantViolated :=
  ⟨by with_unfolding_all decide, invariant_branch_unreachable pW10 pricesW10 (by with_unfolding_all decide)⟩

def fillC10 : Fill := { dt := ⟨2024, 1, 2⟩, symbol := "B", shares := 2, price := 3, fee := 0 }

def pC10 : Portfolio := orInit ((Portfolio.init 10).apply_fill fillC10)

def pricesC10 : String → Option PFloat := fun s => if s = "B" then some .nan else none

/-- C10 counterexample: a price map that covers the single held symbol "B"
(with `NaN`) makes `mark_to_market` raise the "Portfolio invariant violated"
`RuntimeError` — the branch is reachable. -/
theorem invariant_branch_reachable_counterexample :
    (∀ q ∈ pC10.positions, (pricesC10 q.1).isSome) ∧
    pC10.mark_to_market pricesC10 = .error PErr.invariantViolated := by
  refine ⟨by with_unfolding_all decide, by with_unfolding_all decide⟩

/-- C3: `apply_fill` fails iff `price ≤ 0` or `fee < 0` (both `raise`s in the
source precede every mutation, so a failing call leaves the portfolio
unchanged — the model returns the error with no successor state); on success
it sets `positions[symbol] += shares` (deleting the entry when the resulting
magnitude is below 1e-9 and leaving every other symbol untouched), changes
cash by exactly `-shares*price - fee`, increases `fees_paid` by `fee`, and
appends the fill to the log.  The key-nodup hypothesis is the Python dict
representation invariant. -/
theorem apply_fill_spec (p : Portfolio) (f : Fill)
    (hnd : (p.positions.map Prod.fst).Nodup) :
    ((f.price ≤ 0 ∨ f.fee < 0) ↔ ∃ e, p.apply_fill f = .error e) ∧
    ∀ p', p.apply_fill f = .ok p' →
      p'.cash = p.cash + (-(f.shares * f.price) - f.fee) ∧
      p'.fees_paid = p.fees_paid + f.fee ∧
      p'.fills_log = p.fills_log ++ [f] ∧
      (|getPos p.positions f.symbol + f.shares| < eps →
          getEntry p'.positions f.symbol = none) ∧
      (¬ |getPos p.positions f.symbol + f.shares| < eps →
          getEntry p'.positions f.symbol = some (getPos p.positions f.symbol + f.shares)) ∧
      (∀ s, s ≠ f.symbol → getEntry p'.positions s = getEntry p.positions s) ∧
      p'.daily_history = p.daily_history ∧ p'.last_equity = p.last_equity := by
  constructor
  · constructor
    · intro h
      by_cases hp : f.price ≤ 0
      · exact ⟨.invalidFillPrice, by rw [Portfolio.apply_fill, if_pos hp]⟩
      · have hf : f.fee < 0 := h.resolve_left hp
        exact ⟨.invalidFillFee, by rw [Portfolio.apply_fill, if_neg hp, if_pos hf]⟩
    · intro ⟨e, he⟩
      by_contra hc
      push_neg at hc
      rw [Portfolio.apply_fill, if_neg (not_le.mpr hc.1), if_neg (not_lt.mpr hc.2)] at he
      cases he
  · intro p' hp'
    by_cases hp : f.price ≤ 0
    · rw [Portfolio.apply_fill, if_pos hp] at hp'
      cases hp'
    by_cases hf : f.fee < 0
    · rw [Portfolio.apply_fill, if_neg hp, if_pos hf] at hp'
      cases hp'
    rw [Portfolio.apply_fill, if_neg hp, if_neg hf] at hp'
    simp only [Except.ok.injEq] at hp'
    subst hp'
    refine ⟨?_, rfl, rfl, ?_, ?_, ?_, rfl, rfl⟩
    · show p.cash + f.cash_change = _
      rw [Fill.cash_change, Fill.notional]
    · intro hsmall
      rw [← ratAbs_eq] at hsmall
      simp only [if_pos hsmall]
      exact getEntry_eraseEntry_setEntry_self p.positions f.symbol _ hnd
    · intro hbig
      rw [← ratAbs_eq] at hbig
      simp only [if_neg hbig]
      exact getEntry_setEntry_self p.positions f.symbol _
    · intro s hs
      by_cases hsmall : ratAbs (getPos p.positions f.symbol + f.shares) < eps
      · simp only [if_pos hsmall]
        rw [getEntry_eraseEntry_ne _ _ _ hs, getEntry_setEntry_ne _ _ _ _ hs]
      · simp only [if_neg hsmall]
        rw [getEntry_setEntry_ne _ _ _ _ hs]

/-- Witness for C3: spec scenario 1 (buy 10 AAPL at 10 with fee 1 from cash
1000) succeeds and a rejected fill (price 0) is exactly the invalid case. -/
theorem apply_fill_spec_witness :
    (((Portfolio.init 1000).positions.map Prod.fst).Nodup ∧
      ((fillS1.price ≤ 0 ∨ fillS1.fee < 0) ↔
        ∃ e, (Portfolio.init 1000).apply_fill fillS1 = .error e)) ∧
    (pS1.cash = 899 ∧ pS1.positions = [("AAPL", 10)] ∧ pS1.fees_paid = 1) :=
  ⟨⟨by with_unfolding_all decide,
    (apply_fill_spec (Portfolio.init 1000) fillS1 (by with_unfolding_all decide)).1⟩,
   by with_unfolding_all decide, by with_unfolding_all decide, by with_unfolding_all decide⟩

/-! ### `get_weights` -/

/-- Python `sum` over the values of the weights dict. -/
def sumPF (l : List PFloat) : PFloat := l.foldl (· + ·) (.val 0)

theorem sumPF_aux (l : List ℚ) (a : ℚ) :
    (l.map PFloat.val).foldl (· + ·) (.val a) = .val (a + l.sum) := by
  induction l generalizing a with
  | nil => simp
  | cons x rest ih =>
      have hstep : (PFloat.val a + PFloat.val x) = PFloat.val (a + x) := rfl
      simp only [List.map_cons, List.foldl_cons, hstep, ih, List.sum_cons]
      exact congrArg PFloat.val (by ring)

theorem sumPF_map_val_append (l : List ℚ) (x : ℚ) :
    sumPF (l.map PFloat.val ++ [PFloat.val x]) = .val (l.sum + x) := by
  have h1 : l.map PFloat.val ++ [PFloat.val x] = (l ++ [x]).map PFloat.val := by
    simp
  rw [sumPF, h1, sumPF_aux]
  simp

theorem getEntry_map_pair (ps : List (String × α)) (g : String × α → β) (s : String) :
    getEntry (ps.map (fun q => (q.1, g q))) s = (ps.find? (fun r => r.1 = s)).map g := by
  induction ps with
  | nil => rfl
  | cons q rest ih =>
      by_cases h : q.1 = s
      · simp [getEntry_cons, List.find?_cons, h]
      · simp only [List.map_cons, getEntry_cons, if_neg h, List.find?_cons]
        rw [ih]
        simp [h]

theorem keys_map_pair (ps : List (String × α)) (g : String × α → β) :
    (ps.map (fun q => (q.1, g q))).map Prod.fst = ps.map Prod.fst := by
  simp [List.map_map, Function.comp]

theorem find?_key_eq_of_mem {ps : List (String × α)} {q : String × α}
    (hnd : (ps.map Prod.fst).Nodup) (hq : q ∈ ps) :
    ps.find? (fun r => r.1 = q.1) = some q := by
  induction ps with
  | nil => cases hq
  | cons r rest ih =>
      simp only [List.map_cons, List.nodup_cons] at hnd
      rcases List.mem_cons.mp hq with h | h
      · subst h
        simp [List.find?_cons]
      · have hne : r.1 ≠ q.1 := by
          intro heq
          exact hnd.1 (heq ▸ List.mem_map_of_mem Prod.fst h)
        simp only [List.find?_cons, decide_eq_false hne]
        exact ih hnd.2 h

theorem list_sum_div (l : List ℚ) (e : ℚ) :
    (l.map (· / e)).sum = l.sum / e := by
  induction l with
  | nil => simp
  | cons x rest ih => simp [ih, add_div]

theorem get_weights_eq_of_m2m (p : Portfolio) (prices : String → Option PFloat)
    (e : PFloat) (h : p.mark_to_market prices = .ok e) :
    p.get_weights prices =
      if PFloat.ltB (PFloat.abs e) (.val eps)
      then .ok (p.positions.map (fun q => (q.1, PFloat.val 0)))
      else .ok (setEntry
        (p.positions.map (fun q => (q.1, PFloat.val q.2 * ((prices q.1).getD (.val 0)) / e)))
        "cash" (PFloat.val p.cash / e)) := by
  unfold Portfolio.get_weights
  rw [h]
  rfl

/-- C8 (amended): when no held symbol is itself named `"cash"`, every held
symbol has a numeric price, and `|equity| ≥ 1e-9`, `get_weights` returns
weight `shares·price/equity` per held symbol plus a `"cash"` entry
`cash/equity`, and the weights (including `"cash"`) sum to exactly 1; when
`|equity| < 1e-9` it returns zero weight for every held symbol without
raising.  (A held symbol literally named `"cash"` is overwritten by the
cash entry and the weights no longer sum to 1 — see the counterexample.) -/
theorem get_weights_spec (p : Portfolio) (prices : String → Option PFloat)
    (hnd : (p.positions.map Prod.fst).Nodup)
    (hcash : "cash" ∉ p.positions.map Prod.fst)
    (hnum : numericCover p.positions prices) :
    (eps ≤ |p.cash + posValueQ p.positions prices| →
      ∃ w, p.get_weights prices = .ok w ∧
        (∀ q ∈ p.positions, getEntry w q.1 =
          some (.val (q.2 * priceQ prices q.1 / (p.cash + posValueQ p.positions prices)))) ∧
        getEntry w "cash" =
          some (.val (p.cash / (p.cash + posValueQ p.positions prices))) ∧
        sumPF (w.map Prod.snd) = .val 1) ∧
    (|p.cash + posValueQ p.positions prices| < eps →
      p.get_weights prices = .ok (p.positions.map (fun q => (q.1, PFloat.val 0)))) := by
  have hm := mark_to_market_ok p prices hnum
  have hgw := get_weights_eq_of_m2m p prices _ hm
  set e := p.cash + posValueQ p.positions prices with he
  have habs : PFloat.abs (PFloat.val e) = PFloat.val (ratAbs e) := rfl
  constructor
  · intro hge
    have hne : e ≠ 0 := by
      intro h0
      rw [h0] at hge
      rw [abs_zero] at hge
      exact absurd hge (by norm_num [eps])
    have hcond : PFloat.ltB (PFloat.abs (PFloat.val e)) (.val eps) = false := by
      rw [habs]
      show decide (ratAbs e < eps) = false
      rw [ratAbs_eq]
      exact decide_eq_false (not_lt.mpr hge)
    rw [hgw, if_neg (by rw [hcond]; exact Bool.false_ne_true)]
    refine ⟨_, rfl, ?_, ?_, ?_⟩
    · intro q hq
      have hq1 : q.1 ≠ "cash" := fun h => hcash (h ▸ List.mem_map_of_mem Prod.fst hq)
      rw [getEntry_setEntry_ne _ _ _ _ hq1, getEntry_map_pair, find?_key_eq_of_mem hnd hq]
      obtain ⟨r, hr⟩ := hnum q hq
      have hpr : priceQ prices q.1 = r := by simp [priceQ, hr]
      rw [Option.map_some', hr, hpr]
      rfl
    · rw [getEntry_setEntry_self]
      rfl
    · have hkeys : "cash" ∉ (p.positions.map
          (fun q => (q.1, PFloat.val q.2 * ((prices q.1).getD (.val 0)) / PFloat.val e))).map
            Prod.fst := by
        rw [keys_map_pair]
        exact hcash
      rw [setEntry_eq_append_of_not_mem _ _ _ hkeys, List.map_append]
      have hwv : (p.positions.map
            (fun q => (q.1, PFloat.val q.2 * ((prices q.1).getD (.val 0)) / PFloat.val e))).map
              Prod.snd
          = (p.positions.map (fun q => q.2 * priceQ prices q.1 / e)).map PFloat.val := by
        rw [List.map_map, List.map_map]
        apply List.map_congr_left
        intro q hq
        obtain ⟨r, hr⟩ := hnum q hq
        have hpr : priceQ prices q.1 = r := by simp [priceQ, hr]
        show (PFloat.val q.2 * ((prices q.1).getD (.val 0)) / PFloat.val e)
            = PFloat.val (q.2 * priceQ prices q.1 / e)
        rw [hr, hpr]
        rfl
      have hlast : ([((("cash") : String), PFloat.val p.cash / PFloat.val e)]).map Prod.snd
          = [PFloat.val (p.cash / e)] := rfl
      rw [hwv, hlast, sumPF_map_val_append]
      have hsum : (p.positions.map (fun q => q.2 * priceQ prices q.1 / e)).sum
          = posValueQ p.positions prices / e := by
        have hd := list_sum_div (p.positions.map (fun q => q.2 * priceQ prices q.1)) e
        rw [List.map_map] at hd
        have hcomp : ((· / e) ∘ fun q : String × ℚ => q.2 * priceQ prices q.1)
            = fun q : String × ℚ => q.2 * priceQ prices q.1 / e := rfl
        rw [hcomp] at hd
        rw [hd, posValueQ]
      rw [hsum]
      refine congrArg PFloat.val ?_
      rw [div_add_div_same, add_comm]
      exact div_self hne
  · intro hlt
    have hcond : PFloat.ltB (PFloat.abs (PFloat.val e)) (.val eps) = true := by
      rw [habs]
      show decide (ratAbs e < eps) = true
      rw [ratAbs_eq]
      exact decide_eq_true hlt
    rw [hgw, if_pos hcond]

def fillC8 : Fill := { dt := ⟨2024, 1, 2⟩, symbol := "cash", shares := 1, price := 2, fee := 0 }

/-- A reachable portfolio holding one share of a symbol literally named
`"cash"` (cash 3 after the fill). -/
def pC8 : Portfolio := orInit ((Portfolio.init 5).apply_fill fillC8)

def pricesC8 : String → Option PFloat := fun s => if s = "cash" then some (.val 2) else none

/-- The weights dict `get_weights` actually returns for `pC8`. -/
def wC8 : List (String × PFloat) := [("cash", .val (3/5))]

/-- C8 counterexample: equity is 5 (well above 1e-9) and every held symbol is
priced, yet the returned dict maps the held symbol `"cash"` to `cash/equity
= 3/5` rather than its market-value weight `1·2/5`, and the weights sum to
`3/5`, not 1 — the `weights['cash']` assignment overwrote the position's
entry. -/
theorem get_weights_cash_collision_counterexample :
    eps ≤ |pC8.cash + posValueQ pC8.positions pricesC8| ∧
    pC8.get_weights pricesC8 = .ok wC8 ∧
    getEntry wC8 "cash" ≠ some (.val ((1 : ℚ) * 2 / 5)) ∧
    sumPF (wC8.map Prod.snd) ≠ .val 1 := by
  refine ⟨?_, ?_, ?_, ?_⟩
  · rw [← ratAbs_eq]
    with_unfolding_all decide
  · with_unfolding_all decide
  · with_unfolding_all decide
  · with_unfolding_all decide

/-- Witness for C8 at spec scenario 1 (10 AAPL @ 10, cash 899, equity 999). -/
theorem get_weights_spec_witness :
    (eps ≤ |pS1.cash + posValueQ pS1.positions pricesS1|) ∧
    (∃ w, pS1.get_weights pricesS1 = .ok w ∧
      (∀ q ∈ pS1.positions, getEntry w q.1 =
        some (.val (q.2 * priceQ pricesS1 q.1 / (pS1.cash + posValueQ pS1.positions pricesS1)))) ∧
      getEntry w "cash" =
        some (.val (pS1.cash / (pS1.cash + posValueQ pS1.positions pricesS1))) ∧
      sumPF (w.map Prod.snd) = .val 1) := by
  have h1 : eps ≤ |pS1.cash + posValueQ pS1.positions pricesS1| := by
    rw [← ratAbs_eq]
    with_unfolding_all decide
  exact ⟨h1, (get_weights_spec pS1 pricesS1 (by with_unfolding_all decide)
    (by with_unfolding_all decide) (numericCover_of_B (by with_unfolding_all decide))).1 h1⟩

/-- C9: with all held symbols priced numerically, `take_snapshot` appends
exactly one snapshot in which `equity = cash + positions_value`
(`positions_value = Σ shares×price`), `net_exposure = positions_value`,
`gross_exposure = Σ|shares×price|`, `daily_return = equity/previous_equity
− 1` (0 when the previous equity was exactly zero), and it updates the
stored last-equity reference to the new equity, touching nothing else. -/
theorem take_snapshot_spec (p : Portfolio) (dt : Date) (prices : String → Option PFloat)
    (hnum : numericCover p.positions prices) :
    ∃ p' snap,
      p.take_snapshot dt prices = .ok p' ∧
      p'.daily_history = p.daily_history ++ [snap] ∧
      snap.equity = .val (p.cash + posValueQ p.positions prices) ∧
      snap.positions_value = .val (posValueQ p.positions prices) ∧
      snap.equity = PFloat.val snap.cash + snap.positions_value ∧
      snap.net_exposure = snap.positions_value ∧
      snap.gross_exposure = .val (grossValueQ p.positions prices) ∧
      snap.cash = p.cash ∧ snap.dt = dt ∧ snap.num_positions = p.positions.length ∧
      (p.last_equity = .val 0 → snap.daily_return = .val 0) ∧
      (∀ r : ℚ, r ≠ 0 → p.last_equity = .val r →
        snap.daily_return = .val ((p.cash + posValueQ p.positions prices) / r - 1)) ∧
      p'.last_equity = snap.equity ∧
      p'.cash = p.cash ∧ p'.positions = p.positions ∧ p'.fills_log = p.fills_log := by
  have hm := mark_to_market_ok p prices hnum
  have hts : p.take_snapshot dt prices = .ok
      { p with
        daily_history := p.daily_history ++
          [{ dt := dt
             equity := .val (p.cash + posValueQ p.positions prices)
             cash := p.cash
             positions_value := PFloat.val (p.cash + posValueQ p.positions prices) -
               PFloat.val p.cash
             gross_exposure := p.positions.foldl
               (fun acc q => acc + PFloat.abs (PFloat.val q.2 * ((prices q.1).getD (.val 0))))
               (.val 0)
             net_exposure := PFloat.val (p.cash + posValueQ p.positions prices) -
               PFloat.val p.cash
             num_positions := p.positions.length
             daily_return :=
               if PFloat.eqB p.last_equity (.val 0) then PFloat.val 0
               else PFloat.val (p.cash + posValueQ p.positions prices) / p.last_equity -
                 PFloat.val 1 }]
        last_equity := .val (p.cash + posValueQ p.positions prices) } := by
    unfold Portfolio.take_snapshot
    rw [hm]
    rfl
  have hsub : (PFloat.val (p.cash + posValueQ p.positions prices) - PFloat.val p.cash)
      = PFloat.val (posValueQ p.positions prices) := by
    show PFloat.val ((p.cash + posValueQ p.positions prices) - p.cash) = _
    rw [add_sub_cancel_left]
  have hgr : p.positions.foldl
      (fun acc q => acc + PFloat.abs (PFloat.val q.2 * ((prices q.1).getD (.val 0))))
      (.val 0) = .val (grossValueQ p.positions prices) := by
    have := grossValue_aux prices p.positions 0 hnum
    simpa using this
  refine ⟨_, _, hts, rfl, rfl, hsub, ?_, rfl, hgr, rfl, rfl, rfl, ?_, ?_, rfl, rfl, rfl, rfl⟩
  · show PFloat.val (p.cash + posValueQ p.positions prices) =
      PFloat.val p.cash + (PFloat.val (p.cash + posValueQ p.positions prices) -
        PFloat.val p.cash)
    rw [hsub]
    rfl
  · intro h0
    show (if PFloat.eqB p.last_equity (.val 0) then PFloat.val 0
      else PFloat.val (p.cash + posValueQ p.positions prices) / p.last_equity -
        PFloat.val 1) = PFloat.val 0
    rw [h0]
    simp [PFloat.eqB]
  · intro r hr h0
    show (if PFloat.eqB p.last_equity (.val 0) then PFloat.val 0
      else PFloat.val (p.cash + posValueQ p.positions prices) / p.last_equity -
        PFloat.val 1) = _
    rw [h0]
    have : PFloat.eqB (.val r) (.val 0) = false := by
      simp [PFloat.eqB, hr]
    rw [this]
    simp only [Bool.false_eq_true, if_false]
    rfl

/-- Witness for C9 at spec scenario 1 (equity 999 from last equity 1000:
daily return 999/1000 − 1). -/
theorem take_snapshot_spec_witness :
    numericCover pS1.positions pricesS1 ∧
    ∃ p' snap,
      pS1.take_snapshot ⟨2024, 1, 2⟩ pricesS1 = .ok p' ∧
      p'.daily_history = pS1.daily_history ++ [snap] ∧
      snap.equity = .val (pS1.cash + posValueQ pS1.positions pricesS1) ∧
      snap.positions_value = .val (posValueQ pS1.positions pricesS1) ∧
      snap.equity = PFloat.val snap.cash + snap.positions_value ∧
      snap.net_exposure = snap.positions_value ∧
      snap.gross_exposure = .val (grossValueQ pS1.positions pricesS1) ∧
      snap.cash = pS1.cash ∧ snap.dt = ⟨2024, 1, 2⟩ ∧
      snap.num_positions = pS1.positions.length ∧
      (pS1.last_equity = .val 0 → snap.daily_return = .val 0) ∧
      (∀ r : ℚ, r ≠ 0 → pS1.last_equity = .val r →
        snap.daily_return = .val ((pS1.cash + posValueQ pS1.positions pricesS1) / r - 1)) ∧
      p'.last_equity = snap.equity ∧
      p'.cash = pS1.cash ∧ p'.positions = pS1.positions ∧ p'.fills_log = pS1.fills_log :=
  have hnum : numericCover pS1.positions pricesS1 :=
    numericCover_of_B (by with_unfolding_all decide)
  ⟨hnum, take_snapshot_spec pS1 ⟨2024, 1, 2⟩ pricesS1 hnum⟩

/-! ### Sizer -/

/-- The contribution of one symbol to the sizer's output (the body of the
loop in `target_weights_to_quantities`): `none` when the symbol is skipped
(missing/NaN/non-positive price, or dust), `some (symbol, qty)` otherwise. -/
def sizerEmit (target_weights current_positions : List (String × ℚ)) (equity : ℚ)
    (close_prices : String → Option PFloat) (symbol : String) : Option (String × ℤ) :=
  match close_prices symbol with
  | none => none
  | some .nan => none
  | some (.val price) =>
      if price ≤ 0 then none
      else
        let target_shares := ((getEntry target_weights symbol).getD 0 * equity) / price
        let order_qty := roundHalfEven (target_shares - (getEntry current_positions symbol).getD 0)
        if intAbs order_qty < 1 then none else some (symbol, order_qty)

theorem sizerEmit_key {tw cp : List (String × ℚ)} {e : ℚ} {prices : String → Option PFloat}
    {symbol : String} {x : String × ℤ}
    (h : sizerEmit tw cp e prices symbol = some x) : x.1 = symbol := by
  unfold sizerEmit at h
  split at h
  · cases h
  · cases h
  · split at h
    · cases h
    · dsimp only at h
      split at h
      · cases h
      · cases h
        rfl

theorem sizer_foldl (tw cp : List (String × ℚ)) (e : ℚ) (prices : String → Option PFloat)
    (syms : List String) (acc : List (String × ℤ)) :
    syms.foldl
      (fun quantities symbol =>
        match prices symbol with
        | none => quantities
        | some .nan => quantities
        | some (.val price) =>
            if price ≤ 0 then quantities
            else
              let target_shares := ((getEntry tw symbol).getD 0 * e) / price
              let order_qty := roundHalfEven (target_shares - (getEntry cp symbol).getD 0)
              if intAbs order_qty < 1 then quantities
              else quantities ++ [(symbol, order_qty)]) acc
      = acc ++ syms.filterMap (sizerEmit tw cp e prices) := by
  induction syms generalizing acc with
  | nil => simp
  | cons a rest ih =>
      rw [List.foldl_cons, List.filterMap_cons]
      have hbody : ∀ qs : List (String × ℤ),
          (match prices a with
            | none => qs
            | some .nan => qs
            | some (.val price) =>
                if price ≤ 0 then qs
                else
                  let target_shares := ((getEntry tw a).getD 0 * e) / price
                  let order_qty := roundHalfEven (target_shares - (getEntry cp a).getD 0)
                  if intAbs order_qty < 1 then qs
                  else qs ++ [(a, order_qty)])
          = qs ++ (sizerEmit tw cp e prices a).toList := by
        intro qs
        unfold sizerEmit
        cases hp : prices a with
        | none => simp
        | some v =>
            cases v with
            | nan => simp
            | val price =>
                by_cases hle : price ≤ 0
                · simp [if_pos hle]
                · simp only [if_neg hle]
                  by_cases hd : intAbs (roundHalfEven (((getEntry tw a).getD 0 * e) / price -
                      (getEntry cp a).getD 0)) < 1
                  · simp [if_pos hd]
                  · simp [if_neg hd]
      rw [hbody acc, ih]
      cases hem : sizerEmit tw cp e prices a <;> simp [hem]

theorem getEntry_filterMap_emit (tw cp : List (String × ℚ)) (e : ℚ)
    (prices : String → Option PFloat) (syms : List String) (s : String) :
    getEntry (syms.filterMap (sizerEmit tw cp e prices)) s
      = if s ∈ syms then (sizerEmit tw cp e prices s).map Prod.snd else none := by
  induction syms with
  | nil => simp [getEntry_nil]
  | cons a rest ih =>
      rw [List.filterMap_cons]
      by_cases has : a = s
      · subst has
        cases hem : sizerEmit tw cp e prices a with
        | none =>
            rw [ih]
            by_cases hmem : a ∈ rest <;> simp [hmem, hem]
        | some x =>
            have hx := sizerEmit_key hem
            rw [getEntry_cons, if_pos hx]
            simp [hem]
      · cases hem : sizerEmit tw cp e prices a with
        | none =>
            rw [ih]
            simp only [List.mem_cons]
            have : (s = a ∨ s ∈ rest) ↔ s ∈ rest := by
              constructor
              · intro h
                exact h.resolve_left (fun hs => has hs.symm)
              · exact Or.inr
            rw [if_congr this rfl rfl]
        | some x =>
            have hx := sizerEmit_key hem
            rw [getEntry_cons, if_neg (by rw [hx]; exact has), ih]
            simp only [List.mem_cons]
            have : (s = a ∨ s ∈ rest) ↔ s ∈ rest := by
              constructor
              · intro h
                exact h.resolve_left (fun hs => has hs.symm)
              · exact Or.inr
            rw [if_congr this rfl rfl]

theorem sizer_eq_filterMap (tw cp : List (String × ℚ)) (e : ℚ)
    (prices : String → Option PFloat) :
    target_weights_to_quantities tw cp e prices
      = ((tw.map Prod.fst ++ cp.map Prod.fst).dedup).filterMap (sizerEmit tw cp e prices) := by
  unfold target_weights_to_quantities
  rw [sizer_foldl]
  simp

theorem sizerEmit_val (tw cp : List (String × ℚ)) (e : ℚ) (prices : String → Option PFloat)
    (symbol : String) (r : ℚ) (hpr : prices symbol = some (.val r)) :
    sizerEmit tw cp e prices symbol =
      (if r ≤ 0 then none
       else if intAbs (roundHalfEven (((getEntry tw symbol).getD 0 * e) / r -
              (getEntry cp symbol).getD 0)) < 1 then none
       else some (symbol, roundHalfEven (((getEntry tw symbol).getD 0 * e) / r -
              (getEntry cp symbol).getD 0))) := by
  unfold sizerEmit
  rw [hpr]

/-- C5: the sizer's output is computed over the union of the target-weight
and current-position symbols; a symbol whose price is missing, NaN, or ≤ 0
is absent from the output; otherwise its quantity is
`round(target_weight·equity/price − current_shares)` (Python banker's
rounding), and the symbol is absent exactly when that rounded quantity has
magnitude below 1 share. -/
theorem sizer_spec (target_weights current_positions : List (String × ℚ)) (equity : ℚ)
    (close_prices : String → Option PFloat) (s : String) :
    (s ∉ target_weights.map Prod.fst ++ current_positions.map Prod.fst →
      getEntry (target_weights_to_quantities target_weights current_positions equity
        close_prices) s = none) ∧
    ((close_prices s = none ∨ close_prices s = some .nan ∨
        ∃ r, close_prices s = some (.val r) ∧ r ≤ 0) →
      getEntry (target_weights_to_quantities target_weights current_positions equity
        close_prices) s = none) ∧
    (∀ r : ℚ, 0 < r → close_prices s = some (.val r) →
      s ∈ target_weights.map Prod.fst ++ current_positions.map Prod.fst →
      ((|roundHalfEven (((getEntry target_weights s).getD 0 * equity) / r -
            (getEntry current_positions s).getD 0)| < 1 →
          getEntry (target_weights_to_quantities target_weights current_positions equity
            close_prices) s = none) ∧
        (¬ |roundHalfEven (((getEntry target_weights s).getD 0 * equity) / r -
            (getEntry current_positions s).getD 0)| < 1 →
          getEntry (target_weights_to_quantities target_weights current_positions equity
            close_prices) s =
            some (roundHalfEven (((getEntry target_weights s).getD 0 * equity) / r -
              (getEntry current_positions s).getD 0))))) := by
  have hout := sizer_eq_filterMap target_weights current_positions equity close_prices
  have hget := getEntry_filterMap_emit target_weights current_positions equity close_prices
    ((target_weights.map Prod.fst ++ current_positions.map Prod.fst).dedup) s
  refine ⟨?_, ?_, ?_⟩
  · intro hnotin
    rw [hout, hget, if_neg (by rw [List.mem_dedup]; exact hnotin)]
  · intro hbad
    have hem : sizerEmit target_weights current_positions equity close_prices s = none := by
      unfold sizerEmit
      rcases hbad with h | h | ⟨r, hr, hle⟩
      · rw [h]
      · rw [h]
      · rw [hr]
        simp only [if_pos hle]
    rw [hout, hget, hem]
    by_cases hmem : s ∈ (target_weights.map Prod.fst ++ current_positions.map Prod.fst).dedup
    · rw [if_pos hmem]
      rfl
    · rw [if_neg hmem]
  · intro r hr hpr hmem
    have hmem' : s ∈ (target_weights.map Prod.fst ++ current_positions.map Prod.fst).dedup := by
      rw [List.mem_dedup]
      exact hmem
    constructor
    · intro hdust
      have hem : sizerEmit target_weights current_positions equity close_prices s = none := by
        rw [sizerEmit_val _ _ _ _ _ r hpr, if_neg (not_le.mpr hr),
          if_pos (by rw [intAbs_eq]; exact hdust)]
      rw [hout, hget, if_pos hmem', hem]
      rfl
    · intro hbig
      have hem : sizerEmit target_weights current_positions equity close_prices s =
          some (s, roundHalfEven (((getEntry target_weights s).getD 0 * equity) / r -
            (getEntry current_positions s).getD 0)) := by
        rw [sizerEmit_val _ _ _ _ _ r hpr, if_neg (not_le.mpr hr),
          if_neg (by rw [intAbs_eq]; exact hbig)]
      rw [hout, hget, if_pos hmem', hem]
      rfl

def twX : List (String × ℚ) := [("X", 1/2)]

def pricesX : String → Option PFloat := fun s => if s = "X" then some (.val 50) else none

/-- Witness for C5 at spec scenario 6: weight 1/2 of equity 1000 at price 50
with no current position sizes to exactly 10 shares of "X". -/
theorem sizer_spec_witness :
    (0 : ℚ) < 50 ∧ pricesX "X" = some (.val 50) ∧
    ("X" ∈ twX.map Prod.fst ++ ([] : List (String × ℚ)).map Prod.fst) ∧
    ¬ |roundHalfEven (((getEntry twX "X").getD 0 * 1000) / 50 -
        (getEntry ([] : List (String × ℚ)) "X").getD 0)| < 1 ∧
    getEntry (target_weights_to_quantities twX [] 1000 pricesX) "X" =
      some (roundHalfEven (((getEntry twX "X").getD 0 * 1000) / 50 -
        (getEntry ([] : List (String × ℚ)) "X").getD 0)) := by
  have h1 : (0 : ℚ) < 50 := by norm_num
  have h2 : pricesX "X" = some (.val 50) := rfl
  have h3 : "X" ∈ twX.map Prod.fst ++ ([] : List (String × ℚ)).map Prod.fst := by
    with_unfolding_all decide
  have h4 : ¬ |roundHalfEven (((getEntry twX "X").getD 0 * 1000) / 50 -
      (getEntry ([] : List (String × ℚ)) "X").getD 0)| < 1 := by
    rw [← intAbs_eq]
    with_unfolding_all decide
  exact ⟨h1, h2, h3, h4, ((sizer_spec twX [] 1000 pricesX "X").2.2 50 h1 h2 h3).2 h4⟩

/-! ### Execution simulator -/

/-- The fill built for an order with resolved price `fill_price` (the loop
body of `simulate_execution`). -/
def fillOf (cm : BasicCostModel) (o : Order) (fill_price : ℚ) : Fill :=
  { dt := o.execute_dt, symbol := o.symbol, shares := o.shares,
    price := fill_price, fee := cm.calculate_fee o.shares fill_price }

theorem simulate_execution_aux (cm : BasicCostModel) (bars : List Bar) (orders : List Order)
    (f0 : List Fill) (r0 : List Rejection) :
    orders.foldl
      (fun acc o =>
        match get_fill_price bars o with
        | none => (acc.1, acc.2 ++ [{ order := o, reason := rejectionReason o }])
        | some fill_price =>
            let fee := cm.calculate_fee o.shares fill_price
            (acc.1 ++ [{ dt := o.execute_dt, symbol := o.symbol, shares := o.shares,
                         price := fill_price, fee := fee : Fill }], acc.2))
      (f0, r0)
    = (f0 ++ orders.filterMap (fun o => (get_fill_price bars o).map (fillOf cm o)),
       r0 ++ orders.filterMap (fun o =>
         match get_fill_price bars o with
         | none => some { order := o, reason := rejectionReason o }
         | some _ => none)) := by
  induction orders generalizing f0 r0 with
  | nil => simp
  | cons o rest ih =>
      rw [List.foldl_cons, List.filterMap_cons, List.filterMap_cons]
      cases hp : get_fill_price bars o with
      | none =>
          simp only [hp]
          rw [ih]
          simp
      | some pr =>
          simp only [hp]
          rw [ih]
          simp [fillOf]

theorem simulate_execution_eq (cm : BasicCostModel) (bars : List Bar) (orders : List Order) :
    simulate_execution cm bars orders
      = (orders.filterMap (fun o => (get_fill_price bars o).map (fillOf cm o)),
         orders.filterMap (fun o =>
           match get_fill_price bars o with
           | none => some { order := o, reason := rejectionReason o }
           | some _ => none)) := by
  unfold simulate_execution
  rw [simulate_execution_aux]
  simp

theorem exec_partition_length (cm : BasicCostModel) (bars : List Bar) (orders : List Order) :
    (simulate_execution cm bars orders).1.length +
      (simulate_execution cm bars orders).2.length = orders.length := by
  rw [simulate_execution_eq]
  induction orders with
  | nil => rfl
  | cons o rest ih =>
      rw [List.filterMap_cons, List.filterMap_cons]
      cases hp : get_fill_price bars o with
      | none =>
          simp only [hp, Option.map_none', List.length_cons]
          simp only [List.length_cons] at ih ⊢
          omega
      | some pr =>
          simp only [hp, Option.map_some', List.length_cons]
          simp only [List.length_cons] at ih ⊢
          omega

/-- C4: for every order list given to the execution simulator, the orders
with a resolved valid price map one-to-one (in order) onto the fills — each
fill carrying that price, the order's shares, and the cost model's fee
(`(commission_bps + slippage_bps)·|shares·price|/10000` for the reference
model) — and the orders whose resolved open price is missing or ≤ 0 map
one-to-one onto the rejections, whose reason string contains the order's
symbol and execution date; fills and rejections together account for every
input order exactly once. -/
theorem execution_accounting (cm : BasicCostModel) (bars : List Bar) (orders : List Order) :
    (simulate_execution cm bars orders).1 =
      orders.filterMap (fun o => (get_fill_price bars o).map (fillOf cm o)) ∧
    (simulate_execution cm bars orders).2 =
      orders.filterMap (fun o =>
        match get_fill_price bars o with
        | none => some { order := o, reason := rejectionReason o }
        | some _ => none) ∧
    (simulate_execution cm bars orders).1.length +
      (simulate_execution cm bars orders).2.length = orders.length ∧
    (∀ o : Order, get_fill_price bars o = none ↔
      (get_price bars o.symbol o.execute_dt "open" = none ∨
        ∃ r, get_price bars o.symbol o.execute_dt "open" = some r ∧ r ≤ 0)) ∧
    (∀ (o : Order) (p : ℚ), get_fill_price bars o = some p →
      (fillOf cm o p).price = p ∧ (fillOf cm o p).shares = o.shares ∧
      (fillOf cm o p).symbol = o.symbol ∧ (fillOf cm o p).dt = o.execute_dt ∧
      0 < p ∧ (fillOf cm o p).fee = cm.calculate_fee o.shares p) ∧
    (∀ commission slippage shares price : ℚ,
      (BasicCostModel.ofBps commission slippage).calculate_fee shares price =
        (commission + slippage) * |shares * price| / 10000) ∧
    (∀ o : Order, ∃ s1 s2 t1 t2,
      rejectionReason o = s1 ++ o.symbol ++ s2 ∧
      rejectionReason o = t1 ++ o.execute_dt.iso ++ t2) := by
  refine ⟨(simulate_execution_eq cm bars orders).symm ▸ rfl,
    (simulate_execution_eq cm bars orders).symm ▸ rfl,
    exec_partition_length cm bars orders, ?_, ?_, ?_, ?_⟩
  · intro o
    unfold get_fill_price
    cases hp : get_price bars o.symbol o.execute_dt "open" with
    | none => simp
    | some r =>
        by_cases hle : r ≤ 0
        · simp only [if_pos hle]
          constructor
          · intro
            exact Or.inr ⟨r, rfl, hle⟩
          · intro
            trivial
        · simp only [if_neg hle]
          constructor
          · intro hc
            cases hc
          · rintro (hc | ⟨r', hr', hle'⟩)
            · cases hc
            · cases hr'
              exact absurd hle' hle
  · intro o p hp
    refine ⟨rfl, rfl, rfl, rfl, ?_, rfl⟩
    unfold get_fill_price at hp
    cases hq : get_price bars o.symbol o.execute_dt "open" with
    | none => rw [hq] at hp; cases hp
    | some r =>
        rw [hq] at hp
        change (if r ≤ 0 then none else some r) = some p at hp
        by_cases hle : r ≤ 0
        · rw [if_pos hle] at hp; cases hp
        · rw [if_neg hle] at hp
          cases hp
          exact lt_of_not_le hle
  · intro commission slippage shares price
    unfold BasicCostModel.calculate_fee BasicCostModel.ofBps
    rw [ratAbs_eq]
    ring
  · intro o
    refine ⟨"Missing or invalid price for ", " on " ++ o.execute_dt.iso,
      "Missing or invalid price for " ++ o.symbol ++ " on ", "", ?_, ?_⟩
    · rw [rejectionReason, String.append_assoc]
    · rw [rejectionReason, String.append_empty]

def cmEx : BasicCostModel := BasicCostModel.ofBps 1 10

def barsEx : List Bar := [{ symbol := "AAPL", date := ⟨2025, 12, 22⟩, openP := 100, adjClose := 101 }]

def orderEx : Order :=
  { symbol := "AAPL", shares := 10, generated_dt := ⟨2025, 12, 21⟩, execute_dt := ⟨2025, 12, 22⟩ }

/-- Witness for C4 at spec scenario 4: one order for 10 AAPL resolved at open
100 with 1 bp commission and 10 bps slippage yields one fill at price 100
with fee 1.1 and no rejection. -/
theorem execution_accounting_witness :
    get_fill_price barsEx orderEx = some 100 ∧
    (fillOf cmEx orderEx 100).fee = cmEx.calculate_fee orderEx.shares 100 ∧
    cmEx.calculate_fee orderEx.shares 100 = 11/10 ∧
    (simulate_execution cmEx barsEx [orderEx]).1.length +
      (simulate_execution cmEx barsEx [orderEx]).2.length = 1 ∧
    (simulate_execution cmEx barsEx [orderEx]).1 = [fillOf cmEx orderEx 100] :=
  ⟨by with_unfolding_all decide,
   ((execution_accounting cmEx barsEx [orderEx]).2.2.2.2.1 orderEx 100
      (by with_unfolding_all decide)).2.2.2.2.2,
   by with_unfolding_all decide,
   (execution_accounting cmEx barsEx [orderEx]).2.2.1,
   by with_unfolding_all decide⟩

/-! ### Rebalance schedule -/

/-- `t` is the last trading day of its calendar month in the trading
calendar `cal` (what the claim asserts the monthly schedule tests). -/
def lastTradingDayOfMonth (cal : List Date) (t : Date) : Prop :=
  t ∈ cal ∧ ∀ u ∈ cal, u.year = t.year → u.month = t.month → u.day ≤ t.day

instance (cal : List Date) (t : Date) : Decidable (lastTradingDayOfMonth cal t) :=
  inferInstanceAs (Decidable (_ ∧ _))

/-- A two-day trading calendar around the 2024 Easter weekend: 2024-03-28
(Thursday) was the last trading day of March 2024 (Mar 29 was Good Friday,
Mar 30–31 a weekend). -/
def calC6 : List Date := [⟨2024, 3, 28⟩, ⟨2024, 4, 1⟩]

/-- C6 counterexample: 2024-03-28 is the last trading day of its month in
the calendar, yet the monthly schedule does not fire — `_is_rebalance_day`
tests the last *calendar* day (`(t + 1 day).month != t.month`), and March 28
+ 1 day is still March. -/
theorem rebalance_monthly_counterexample :
    lastTradingDayOfMonth calC6 ⟨2024, 3, 28⟩ ∧
    (∀ t ∈ calC6, t.Valid) ∧ List.Chain' Date.lt calC6 ∧
    isRebalanceDay "M" ⟨2024, 3, 28⟩ = false := by
  refine ⟨by decide, by decide, ?_, by decide⟩
  unfold calC6
  exact List.chain'_cons.mpr ⟨by decide, List.chain'_singleton _⟩

/-- C6 (amended): for every valid calendar date, the daily schedule fires
every day; the weekly schedule fires exactly on Fridays; and the monthly
schedule fires exactly on the last *calendar* day of the month (the day
whose successor lies in a different month) — not the last trading day, so
months whose final calendar day is not a trading day get no rebalance. -/
theorem is_rebalance_day_spec (t : Date) (h : t.Valid) :
    isRebalanceDay "D" t = true ∧
    (isRebalanceDay "W" t = true ↔ t.weekday = 4) ∧
    (isRebalanceDay "M" t = true ↔ t.day = Date.daysInMonth t.year t.month) := by
  obtain ⟨hm1, hm2, hd1, hd2⟩ := h
  refine ⟨?_, ?_, ?_⟩
  · unfold isRebalanceDay
    rw [if_pos rfl]
  · unfold isRebalanceDay
    rw [if_neg (by decide), if_pos rfl]
    simp
  · unfold isRebalanceDay
    rw [if_neg (by decide), if_neg (by decide), if_pos rfl, decide_eq_true_eq]
    unfold Date.next
    by_cases hlt : t.day < Date.daysInMonth t.year t.month
    · rw [if_pos hlt]
      show t.month ≠ t.month ↔ _
      constructor
      · intro hc
        exact absurd rfl hc
      · intro hd
        omega
    · rw [if_neg hlt]
      by_cases hm : t.month < 12
      · rw [if_pos hm]
        show t.month + 1 ≠ t.month ↔ _
        constructor
        · intro
          omega
        · intro _ hc
          omega
      · rw [if_neg hm]
        show 1 ≠ t.month ↔ _
        constructor
        · intro
          omega
        · intro _ hc
          omega

/-- Witness for C6 on 2024-03-31 (a Sunday, the last calendar day of March
2024: monthly fires, weekly does not) and, via the schedule equivalences,
on 2024-03-29 (a Friday). -/
theorem is_rebalance_day_spec_witness :
    (Date.Valid ⟨2024, 3, 31⟩ ∧
      (isRebalanceDay "D" ⟨2024, 3, 31⟩ = true ∧
        (isRebalanceDay "W" ⟨2024, 3, 31⟩ = true ↔ Date.weekday ⟨2024, 3, 31⟩ = 4) ∧
        (isRebalanceDay "M" ⟨2024, 3, 31⟩ = true ↔
          Date.day ⟨2024, 3, 31⟩ = Date.daysInMonth 2024 3))) ∧
    Date.weekday ⟨2024, 3, 29⟩ = 4 ∧
    Date.day ⟨2024, 3, 31⟩ = Date.daysInMonth 2024 3 :=
  ⟨⟨by decide, is_rebalance_day_spec ⟨2024, 3, 31⟩ (by decide)⟩, by decide, by decide⟩

/-! ### Engine close-price NaN leak (C7) -/

/-- Bars for a two-day run in which symbol "A" trades on the first day
only, while "B" trades on both days (so both days are trading days and
"A" is a column of the pivoted close-price table). -/
def bars7 : List Bar :=
  [ { symbol := "A", date := ⟨2024, 1, 2⟩, openP := 10, adjClose := 10 },
    { symbol := "B", date := ⟨2024, 1, 2⟩, openP := 5, adjClose := 5 },
    { symbol := "B", date := ⟨2024, 1, 3⟩, openP := 6, adjClose := 6 } ]

/-- A daily-rebalancing engine over those bars whose strategy emits no
target quantities.  No order is ever created, so the broken
`simulate_execution` call site is never reached (`if orders_to_execute:`
stays falsy) and the run exercises only the mark-to-market / snapshot
path. -/
def cfg7 : EngineCfg :=
  { schedule := "D"
    days := [⟨2024, 1, 2⟩, ⟨2024, 1, 3⟩]
    bars := bars7
    cost := BasicCostModel.ofBps 0 0
    lookback := 5
    strategy := fun _ _ _ => [] }

def fillC7 : Fill := { dt := ⟨2024, 1, 1⟩, symbol := "A", shares := 1, price := 10, fee := 0 }

/-- A reachable portfolio holding one share of "A" (cash 90), handed to
the engine at construction — `BacktestEngine.__init__` accepts an
arbitrary `Portfolio` from its caller. -/
def p7 : Portfolio := orInit ((Portfolio.init 100).apply_fill fillC7)

/-- C7 exhibit: on 2024-01-03 the held symbol "A" has no close price, but
the engine's pivoted price row still carries an entry for it — the float
`NaN`, not an omission — so `mark_to_market`'s strict missing-price
validation is bypassed and the run aborts with the "Portfolio invariant
violated" `RuntimeError`, not with the `MissingPrice` condition the spec
(and the claim) prescribe for a held symbol without a price.  The first
day's snapshot succeeds, and no order execution is ever attempted on this
trace. -/
theorem engine_nan_close_bug :
    p7.positions = [("A", 1)] ∧
    closePriceMap bars7 ⟨2024, 1, 3⟩ "A" = some PFloat.nan ∧
    (runBacktest cfg7 p7).fatal = some PErr.invariantViolated ∧
    (runBacktest cfg7 p7).fatal ≠ some (PErr.missingPrice "A") ∧
    (runBacktest cfg7 p7).fatal ≠ some PErr.typeError ∧
    (runBacktest cfg7 p7).port.daily_history.length = 1 ∧
    (runBacktest cfg7 p7).port.positions = [("A", 1)] := by
  refine ⟨by with_unfolding_all decide, by with_unfolding_all decide,
    by with_unfolding_all decide, by with_unfolding_all decide,
    by with_unfolding_all decide, by with_unfolding_all decide,
    by with_unfolding_all decide⟩

/-! ### Order scheduling and the dead execution path (C1) -/

/-- An order the engine may legitimately hold: generated on some calendar
day `i` that satisfied the rebalance schedule, and executing exactly on
calendar day `i + 1`. -/
def OrderOk (cfg : EngineCfg) (o : Order) : Prop :=
  ∃ i, cfg.days.get? i = some o.generated_dt ∧ cfg.days.get? (i + 1) = some o.execute_dt ∧
    isRebalanceDay cfg.schedule o.generated_dt = true

/-- Invariant of the engine loop: every order in the audit log is
`OrderOk`. -/
def ProducedOk (cfg : EngineCfg) (st : EngSt) : Prop :=
  ∀ o ∈ st.produced, OrderOk cfg o

theorem rebalancePhase_orders (cfg : EngineCfg) (i : Nat) (t : Date) (port : Portfolio)
    (cp : String → Option PFloat) (newOrders : List Order)
    (h : rebalancePhase cfg i t port cp = .ok newOrders) :
    ∀ o ∈ newOrders, o.generated_dt = t ∧ cfg.days.get? (i + 1) = some o.execute_dt ∧
      isRebalanceDay cfg.schedule t = true := by
  unfold rebalancePhase at h
  by_cases hreb : isRebalanceDay cfg.schedule t = true
  · rw [if_pos hreb] at h
    cases hm : port.mark_to_market cp with
    | error e =>
        rw [hm] at h
        cases h
    | ok equity =>
        rw [hm] at h
        cases hw : port.get_weights cp with
        | error e =>
            rw [hw] at h
            cases h
        | ok weights =>
            rw [hw] at h
            dsimp only at h
            by_cases hh : (cfg.days.take (i + 1)).drop (i - cfg.lookback) = []
            · rw [if_pos hh] at h
              cases h
              intro o ho
              cases ho
            · rw [if_neg hh] at h
              cases hn : cfg.days.get? (i + 1) with
              | none =>
                  rw [hn] at h
                  cases h
                  intro o ho
                  cases ho
              | some next_day =>
                  rw [hn] at h
                  cases h
                  intro o ho
                  obtain ⟨q, _, rfl⟩ := List.mem_map.mp ho
                  exact ⟨rfl, rfl, hreb⟩
  · rw [if_neg hreb] at h
    cases h
    intro o ho
    cases ho

theorem engineDay_producedOk (cfg : EngineCfg) (i : Nat) (t : Date) (st : EngSt)
    (hday : cfg.days.get? i = some t) (hst : ProducedOk cfg st) :
    ProducedOk cfg (engineDay cfg i t st) := by
  unfold engineDay
  dsimp only
  by_cases he : (st.scheduled.filter (fun o => o.execute_dt = t)).isEmpty = true
  · rw [if_pos he]
    split
    · exact hst
    · next newOrders hrp =>
      have hNew : ∀ o ∈ newOrders, OrderOk cfg o := by
        intro o ho
        obtain ⟨hgen, hexec, hreb⟩ := rebalancePhase_orders cfg i t st.port _ newOrders hrp o ho
        exact ⟨i, by rw [hgen]; exact hday, hexec, by rw [hgen]; exact hreb⟩
      have hprod' : ∀ o ∈ st.produced ++ newOrders, OrderOk cfg o := by
        intro o ho
        rcases List.mem_append.mp ho with ho | ho
        · exact hst o ho
        · exact hNew o ho
      split
      · exact hprod'
      · exact hprod'
  · rw [if_neg he]
    exact hst

theorem engineLoop_producedOk (cfg : EngineCfg) (l : List (Nat × Date)) (st : EngSt)
    (hl : ∀ p ∈ l, cfg.days.get? p.1 = some p.2) (hst : ProducedOk cfg st) :
    ProducedOk cfg (engineLoop cfg l st) := by
  induction l generalizing st with
  | nil => exact hst
  | cons p rest ih =>
      rw [engineLoop]
      by_cases hfat : st.fatal.isSome
      · rw [if_pos hfat]
        exact hst
      · rw [if_neg hfat]
        exact ih _ (fun q hq => hl q (List.mem_cons_of_mem p hq))
          (engineDay_producedOk cfg p.1 p.2 st (hl p (List.mem_cons_self p rest)) hst)

/-- A successful `take_snapshot` only appends to the history and updates
the last-equity reference: cash, positions and the fill log are
untouched. -/
theorem take_snapshot_port_delta (p : Portfolio) (dt : Date)
    (prices : String → Option PFloat) (p' : Portfolio)
    (h : p.take_snapshot dt prices = .ok p') :
    p'.fills_log = p.fills_log ∧ p'.positions = p.positions ∧ p'.cash = p.cash := by
  cases hm : p.mark_to_market prices with
  | error e =>
      have hts : p.take_snapshot dt prices = .error e := by
        unfold Portfolio.take_snapshot
        rw [hm]
        rfl
      rw [hts] at h
      cases h
  | ok equity =>
      have hts : p.take_snapshot dt prices = .ok
          { p with
            daily_history := p.daily_history ++
              [{ dt := dt
                 equity := equity
                 cash := p.cash
                 positions_value := equity - PFloat.val p.cash
                 gross_exposure := p.positions.foldl
                   (fun acc q => acc + PFloat.abs
                     (PFloat.val q.2 * ((prices q.1).getD (.val 0)))) (.val 0)
                 net_exposure := equity - PFloat.val p.cash
                 num_positions := p.positions.length
                 daily_return :=
                   if PFloat.eqB p.last_equity (.val 0) then PFloat.val 0
                   else equity / p.last_equity - PFloat.val 1 }]
            last_equity := equity } := by
        unfold Portfolio.take_snapshot
        rw [hm]
        rfl
      rw [hts] at h
      cases h
      exact ⟨rfl, rfl, rfl⟩

/-- One engine day never touches the portfolio's fill log (the only
portfolio mutation on the reachable path is `take_snapshot`). -/
theorem engineDay_fills_log (cfg : EngineCfg) (i : Nat) (t : Date) (st : EngSt) :
    (engineDay cfg i t st).port.fills_log = st.port.fills_log := by
  unfold engineDay
  dsimp only
  by_cases he : (st.scheduled.filter (fun o => o.execute_dt = t)).isEmpty = true
  · rw [if_pos he]
    split
    · rfl
    · split
      · rfl
      · next port2 hts =>
        exact (take_snapshot_port_delta st.port t (closePriceMap cfg.bars t) port2 hts).1
  · rw [if_neg he]

theorem engineLoop_fills_log (cfg : EngineCfg) (l : List (Nat × Date)) (st : EngSt) :
    (engineLoop cfg l st).port.fills_log = st.port.fills_log := by
  induction l generalizing st with
  | nil => rfl
  | cons p rest ih =>
      rw [engineLoop]
      by_cases hfat : st.fatal.isSome
      · rw [if_pos hfat]
      · rw [if_neg hfat, ih]
        exact engineDay_fills_log cfg p.1 p.2 st

theorem chain'_get?_lt {l : List Date} (h : List.Chain' Date.lt l) {i : ℕ} {a b : Date}
    (ha : l.get? i = some a) (hb : l.get? (i + 1) = some b) : Date.lt a b := by
  rw [List.chain'_iff_get] at h
  obtain ⟨hia, hga⟩ := List.get?_eq_some.mp ha
  obtain ⟨hib, hgb⟩ := List.get?_eq_some.mp hb
  have hlt : i < l.length - 1 := by omega
  have := h i hlt
  rw [hga, hgb] at this
  exact this

/-- C1: the scheduling half of the claim holds — over a strictly
increasing trading calendar, every order the engine produces is generated
on a rebalance day and carries an execution timestamp that is exactly the
next trading day in the calendar, hence strictly later.  The execution
half does not: the engine can never execute an order, because the first
day with a non-empty popped order list dies in the `TypeError` of the
mismatched `simulate_execution(orders=..., open_prices_for_day=...)` call
(signature `(self, orders, data_handler)`), so the portfolio's fill log
never grows in any run — there is no fill whose price could be examined. -/
theorem engine_schedules_next_day_but_never_fills (cfg : EngineCfg) (p0 : Portfolio)
    (hsorted : List.Chain' Date.lt cfg.days) :
    (∀ o ∈ (runBacktest cfg p0).produced,
      isRebalanceDay cfg.schedule o.generated_dt = true ∧
      (∃ i, cfg.days.get? i = some o.generated_dt ∧
        cfg.days.get? (i + 1) = some o.execute_dt) ∧
      Date.lt o.generated_dt o.execute_dt) ∧
    (runBacktest cfg p0).port.fills_log = p0.fills_log := by
  have hprod : ProducedOk cfg (runBacktest cfg p0) := by
    rw [runBacktest]
    refine engineLoop_producedOk cfg cfg.days.enum _ ?_ ?_
    · intro p hp
      obtain ⟨i, a⟩ := p
      exact List.mem_enum_iff_get?.mp hp
    · intro o ho
      cases ho
  constructor
  · intro o ho
    obtain ⟨i, h1, h2, h3⟩ := hprod o ho
    exact ⟨h3, ⟨i, h1, h2⟩, chain'_get?_lt hsorted h1 h2⟩
  · rw [runBacktest, engineLoop_fills_log]

/-- A two-day daily-rebalancing engine whose strategy asks for 2 shares of
"A": the day-1 order is scheduled for day 2, and on day 2 the popped order
list is non-empty, so the run dies in the `TypeError` of the mismatched
`simulate_execution` call without applying any fill. -/
def cfgW : EngineCfg :=
  { schedule := "D"
    days := [⟨2024, 1, 2⟩, ⟨2024, 1, 3⟩]
    bars :=
      [ { symbol := "A", date := ⟨2024, 1, 2⟩, openP := 10, adjClose := 11 },
        { symbol := "A", date := ⟨2024, 1, 3⟩, openP := 12, adjClose := 13 } ]
    cost := BasicCostModel.ofBps 0 0
    lookback := 5
    strategy := fun _ _ _ => [("A", 2)] }

/-- Witness for C1 on `cfgW`: the run produces exactly one order (with the
no-lookahead timestamps), applies no fill, and aborts with the
`TypeError`. -/
theorem engine_schedules_next_day_but_never_fills_witness :
    List.Chain' Date.lt cfgW.days ∧
    ((∀ o ∈ (runBacktest cfgW (Portfolio.init 100)).produced,
      isRebalanceDay cfgW.schedule o.generated_dt = true ∧
      (∃ i, cfgW.days.get? i = some o.generated_dt ∧
        cfgW.days.get? (i + 1) = some o.execute_dt) ∧
      Date.lt o.generated_dt o.execute_dt) ∧
    (runBacktest cfgW (Portfolio.init 100)).port.fills_log =
      (Portfolio.init 100).fills_log) ∧
    (runBacktest cfgW (Portfolio.init 100)).produced.length = 1 ∧
    (runBacktest cfgW (Portfolio.init 100)).fatal = some PErr.typeError ∧
    (runBacktest cfgW (Portfolio.init 100)).port.fills_log = [] :=
  have hch : List.Chain' Date.lt cfgW.days :=
    List.chain'_cons.mpr ⟨by decide, List.chain'_singleton _⟩
  ⟨hch, engine_schedules_next_day_but_never_fills cfgW (Portfolio.init 100) hch,
    by with_unfolding_all decide, by with_unfolding_all decide,
    by with_unfolding_all decide⟩
